import Mathlib

/-!
Verification of the Elemental distributed linear-algebra core against its
specification.

The development shallowly embeds the relevant routines of the repository:

* `src/src/BLAS/Level3/Herk/HerkUN.cpp` — the Hermitian rank-k update
  `C := alpha A A^H + beta C` (upper triangle, normal orientation), its
  recursive update `HerkUNUpdate` and base-case kernel `HerkUNUpdateKernel`.
* `src/src/optimization/solvers/LP/affine/IPM/IPF.cpp` — the termination and
  error-signalling control flow of the affine-LP infeasible-path-following
  solver.
* `src/src/matrices-C.cpp` — the C wrappers `ElCauchyLike_` and
  `ElCauchyLikeDist_`.
* `src/src/blas_like/level1/Adjoint/PartialColFilter.cpp` — the adjoint
  partial column filter.
* The redistribution protocol (spec sections 3, 4.2), whose implementation is
  not among the sampled sources; it is modelled from the spec.

Distributed matrices are embedded at the level of their global entries: the
spec's redistribution contract (section 4.2) makes every data movement
value-preserving, and in `HerkUN` the `[MC,* ]` / `[MR,* ]` panels are aligned
with `C`, so each local `Gemm` computes exactly the owned global entries of
the corresponding quadrant of `C`.  A matrix is a total function
`Nat -> Nat -> R` together with the extents the algorithm manipulates; a
quadrant is an index range into the same function, matching the view/offset
style of the source (`PartitionDownDiagonal`, `LockedPartitionDown`).
Machine `unsigned` arithmetic never overflows for the sizes involved, so
indices are `Nat`.
-/

namespace Elemental

section HerkDefs

variable {R : Type} [CommRing R] [StarRing R]

/-- Sum of `f 0 + f 1 + ... + f (w-1)`, the contraction over the panel width
performed by a local `Gemm` call. -/
def sumT : ℕ → (ℕ → R) → R
  | 0, _ => 0
  | n + 1, f => sumT n f + f n

/-- The exact rank-k contribution `sum_{t < w} A(i, tOff+t) * conj(A(j, tOff+t))`
of the panel of `A` occupying global columns `[tOff, tOff+w)` to entry `(i,j)`
of `C`.  This is the entry of `A1 * A1^H` a local
`Gemm( Normal, ConjugateTranspose, .. )` produces for aligned
`[MC,* ]` / `[MR,* ]` operands. -/
def herkContrib (A : ℕ → ℕ → R) (tOff w i j : ℕ) : R :=
  sumT w fun t => A i (tOff + t) * star (A j (tOff + t))

/-- `BLAS::Scal( beta, C )` applied to the sub-matrix of `C` with global rows
`[r0, r1)` and columns `[c0, c1)`: every entry of that block is multiplied by
`beta` in place; entries outside are untouched. -/
def Scal (beta : R) (C : ℕ → ℕ → R) (r0 r1 c0 c1 : ℕ) : ℕ → ℕ → R :=
  fun i j => if r0 ≤ i ∧ i < r1 ∧ c0 ≤ j ∧ j < c1 then beta * C i j else C i j

/-- `BLAS::Gemm( Normal, ConjugateTranspose, alpha, AT, AB, beta, CTR )` from
`HerkUNUpdate`/`HerkUNUpdateKernel`, expressed on global indices: the block of
`C` with rows `[r0, r1)` and columns `[c0, c1)` becomes
`alpha * (panel of A) * (panel of A)^H + beta * C`; the row (resp. column)
offset of the `C` block coincides with the row offset of the `A` operand, so
the product entry at global `(i,j)` is `herkContrib A tOff w i j`. -/
def GemmRegion (alpha : R) (A : ℕ → ℕ → R) (tOff w : ℕ) (beta : R)
    (C : ℕ → ℕ → R) (r0 r1 c0 c1 : ℕ) : ℕ → ℕ → R :=
  fun i j =>
    if r0 ≤ i ∧ i < r1 ∧ c0 ≤ j ∧ j < c1 then
      alpha * herkContrib A tOff w i j + beta * C i j
    else C i j

/-- The masked update of a diagonal block `[d0, d1) x [d0, d1)` of `C` in
`HerkUNUpdateKernel`: `Gemm( Normal, ConjugateTranspose, alpha, .., (T)0, D )`
computes `D := alpha * (panel) * (panel)^H` for the block,
`D.MakeTrapezoidal( Left, Upper )` zeroes the entries of `D` strictly below
the diagonal, and `BLAS::Axpy( (T)1, D, C )` adds the masked block to `C`. -/
def MaskedAxpyRegion (alpha : R) (A : ℕ → ℕ → R) (tOff w : ℕ)
    (C : ℕ → ℕ → R) (d0 d1 : ℕ) : ℕ → ℕ → R :=
  fun i j =>
    if d0 ≤ i ∧ i < d1 ∧ d0 ≤ j ∧ j < d1 then
      C i j + (if j < i then 0 else alpha * herkContrib A tOff w i j)
    else C i j

/-- `BLAS::Internal::HerkUNUpdateKernel( alpha, A_MC_Star, A_MR_Star, beta, C )`
acting on the `m x m` diagonal block of `C` at offset `off`, with the panel of
`A` at columns `[tOff, tOff + w)`.  Mirrors the source: `Scal( beta, C )`,
the `Gemm` into `CTR` (rows `[off, off+half)`, columns `[off+half, off+m)`,
accumulation factor `(T)1`), then the two masked diagonal updates into `CTL`
and `CBR` with `half = m / 2`. -/
def HerkUNUpdateKernel (alpha : R) (A : ℕ → ℕ → R) (tOff w : ℕ) (beta : R)
    (C : ℕ → ℕ → R) (off m : ℕ) : ℕ → ℕ → R :=
  MaskedAxpyRegion alpha A tOff w
    (MaskedAxpyRegion alpha A tOff w
      (GemmRegion alpha A tOff w 1
        (Scal beta C off (off + m) off (off + m))
        off (off + m / 2) (off + m / 2) (off + m))
      off (off + m / 2))
    (off + m / 2) (off + m)

/-- `BLAS::Internal::HerkUNUpdate( alpha, A_MC_Star, A_MR_Star, beta, C )` on
the `m x m` diagonal block of `C` at offset `off`; `gw` is `grid.Width()` and
`nb` is `Blocksize()`.  If `C.Height() < 2*grid.Width()*Blocksize()` the
base-case kernel runs; otherwise `C` is split at `half = m/2`, one `Gemm`
updates `CTR` (with the incoming `beta`), and the two diagonal quadrants
`CTL` and `CBR` recurse.  (The disjunct `m < 2` only redirects inputs on
which the source recursion would never terminate — it requires
`2*gw*nb ≤ m < 2`, i.e. `gw*nb = 0`, impossible for a real grid and block
size; on every other input the guard is exactly the source's test.) -/
def HerkUNUpdate (gw nb : ℕ) (alpha : R) (A : ℕ → ℕ → R) (tOff w : ℕ)
    (beta : R) (C : ℕ → ℕ → R) (off m : ℕ) : ℕ → ℕ → R :=
  if m < 2 * gw * nb ∨ m < 2 then
    HerkUNUpdateKernel alpha A tOff w beta C off m
  else
    HerkUNUpdate gw nb alpha A tOff w beta
      (HerkUNUpdate gw nb alpha A tOff w beta
        (GemmRegion alpha A tOff w beta C off (off + m / 2) (off + m / 2)
          (off + m))
        off (m / 2))
      (off + m / 2) (m - m / 2)
termination_by m
decreasing_by
  · omega
  · omega

/-- The panel loop of `BLAS::Internal::HerkUN`: starting from column offset
`tOff`, repeatedly split off the next panel `A1` of width
`min( Blocksize(), AR.Width() )`, redistribute it (value-preserving) and
accumulate its contribution through `HerkUNUpdate` with scale factor `(T)1`.
(The guard `0 < nb` only excludes `Blocksize() = 0`, on which the source loop
would never advance.) -/
def HerkUNPanelLoop (gw nb : ℕ) (alpha : R) (A : ℕ → ℕ → R) (m k : ℕ)
    (C : ℕ → ℕ → R) (tOff : ℕ) : ℕ → ℕ → R :=
  if tOff < k ∧ 0 < nb then
    HerkUNPanelLoop gw nb alpha A m k
      (HerkUNUpdate gw nb alpha A tOff (min nb (k - tOff)) 1 C 0 m)
      (tOff + min nb (k - tOff))
  else C
termination_by k - tOff
decreasing_by omega

/-- `BLAS::Internal::HerkUN( alpha, A, beta, C )` with `A` of global shape
`m x k` and `C` of shape `m x m`: first `BLAS::Scal( beta, C )` on all of `C`,
then the panel loop over `A`'s columns from offset `0`. -/
def HerkUN (gw nb : ℕ) (alpha : R) (A : ℕ → ℕ → R) (m k : ℕ) (beta : R)
    (C : ℕ → ℕ → R) : ℕ → ℕ → R :=
  HerkUNPanelLoop gw nb alpha A m k (Scal beta C 0 m 0 m) 0

/-- Modelled from the spec (section 4.3, base case): "perform a single local
dense multiply producing the *full* m x m contribution, mask it to the
declared triangle (zero out the complementary triangle of the locally
computed block before adding), and accumulate into C".  The incoming scale
factor `beta` is applied to the block of `C`, matching the kernel's
interface; the masked full product adds
`alpha * herkContrib` at entries on or above the diagonal and zero strictly
below it. -/
def SpecMaskedFullMultiply (alpha : R) (A : ℕ → ℕ → R) (tOff w : ℕ)
    (beta : R) (C : ℕ → ℕ → R) (off m : ℕ) : ℕ → ℕ → R :=
  fun i j =>
    if off ≤ i ∧ i < off + m ∧ off ≤ j ∧ j < off + m then
      if j < i then beta * C i j
      else beta * C i j + alpha * herkContrib A tOff w i j
    else C i j

end HerkDefs

/-!
Redistribution protocol (spec sections 3 and 4.2).  The implementation is not
among the sampled sources; every definition in this section is modelled from
the spec's words.  A process grid is `r x c` with processes addressed by
`(row, col)` pairs and a column-major linear ranking
(`row rank = rank mod r`, `col rank = rank div r`, spec section 3).
-/

/-- Modelled from the spec: the distribution kinds of section 3 — each
dimension of a Distribution Descriptor is drawn from
{grid-row, grid-col, grid-row-major-linear, grid-col-major-linear,
replicated, single-process}.  `vcLinear` is the column-major linear ranking,
`vrLinear` the row-major one. -/
inductive DistKind : Type
  | gridRow
  | gridCol
  | vcLinear
  | vrLinear
  | replicated
  | singleProc
deriving DecidableEq

/-- Modelled from the spec: the cyclic modulus of a distribution kind — the
number of ownership classes along that dimension ("a process owns global row
i under distribution grid-row with alignment a iff i mod r == (gridRow + a)
mod r", spec section 3).  A replicated or single-process dimension stores the
whole index range contiguously, which is the cyclic rule with modulus 1. -/
def DistKind.modOf (r c : ℕ) : DistKind → ℕ
  | .gridRow => r
  | .gridCol => c
  | .vcLinear => r * c
  | .vrLinear => r * c
  | .replicated => 1
  | .singleProc => 1

/-- Modelled from the spec: the coordinate of process `p = (row, col)` along
a distribution kind's ownership axis.  Linear kinds use the grid's
column-major ranking `row + col*r` (resp. the row-major `col + row*c`);
replicated and single-process dimensions have a single ownership class. -/
def DistKind.coordOf (r c : ℕ) : DistKind → ℕ × ℕ → ℕ
  | .gridRow, p => p.1
  | .gridCol, p => p.2
  | .vcLinear, p => p.1 + p.2 * r
  | .vrLinear, p => p.2 + p.1 * c
  | .replicated, _ => 0
  | .singleProc, _ => 0

/-- Modelled from the spec: whether a kind constrains the grid-row axis of
the owning process. -/
def DistKind.usesRowAxis : DistKind → Bool
  | .gridRow => true
  | .vcLinear => true
  | .vrLinear => true
  | .singleProc => true
  | _ => false

/-- Modelled from the spec: whether a kind constrains the grid-column axis of
the owning process. -/
def DistKind.usesColAxis : DistKind → Bool
  | .gridCol => true
  | .vcLinear => true
  | .vrLinear => true
  | .singleProc => true
  | _ => false

/-- Modelled from the spec: the upper bound of the legal alignment range
"[0, grid extent)" for each kind; a single-process dimension's alignment
names the owning linear rank. -/
def DistKind.alignBound (r c : ℕ) : DistKind → ℕ
  | .gridRow => r
  | .gridCol => c
  | .vcLinear => r * c
  | .vrLinear => r * c
  | .replicated => 1
  | .singleProc => r * c

/-- Modelled from the spec: the canonical ownership coordinate of global
index `i` under cyclic modulus `M` and alignment `a` — the unique
`coord < M` with `(coord + a) mod M = i mod M` (spec section 3's ownership
rule solved for the grid coordinate). -/
def canonCoord (M a i : ℕ) : ℕ :=
  (i % M + (M - a % M)) % M

/-- Modelled from the spec: the global index stored at local position `l` by
the process with ownership coordinate `coord` — the `l`-th member of the
owned residue class, `(coord + a) mod M + l * M` (local storage holds
"exactly the count of global indices this process owns", in increasing
order, spec section 3). -/
def localToGlobal (M a coord l : ℕ) : ℕ :=
  (coord + a) % M + l * M

/-- Modelled from the spec: the local position of global index `i` in its
owner's storage (inverse of `localToGlobal` on the owned class). -/
def globalToLocal (M i : ℕ) : ℕ :=
  i / M

/-- Modelled from the spec: constrain the grid coordinates of an owning
process according to one descriptor dimension; axes the kind does not use
are left as supplied. -/
def applyDim (r c : ℕ) (k : DistKind) (a coord : ℕ) (p : ℕ × ℕ) : ℕ × ℕ :=
  match k with
  | .gridRow => (coord, p.2)
  | .gridCol => (p.1, coord)
  | .vcLinear => (coord % r, coord / r)
  | .vrLinear => (coord / c, coord % c)
  | .replicated => p
  | .singleProc => (a % r, a / r)

/-- Modelled from the spec: a Distribution Descriptor — a kind and alignment
per global dimension (spec section 3). -/
structure Descr : Type where
  rowKind : DistKind
  rowAlign : ℕ
  colKind : DistKind
  colAlign : ℕ
deriving DecidableEq

/-- Modelled from the spec: a descriptor is in the supported catalogue when
its two dimensions map to disjoint grid axes (each global dimension "names
how [it] maps to a grid dimension (or to replicated/single-process)") and
each alignment lies in `[0, grid extent)`. -/
def DescrOK (r c : ℕ) (D : Descr) : Prop :=
  ¬(D.rowKind.usesRowAxis = true ∧ D.colKind.usesRowAxis = true) ∧
  ¬(D.rowKind.usesColAxis = true ∧ D.colKind.usesColAxis = true) ∧
  D.rowAlign < D.rowKind.alignBound r c ∧
  D.colAlign < D.colKind.alignBound r c

instance (r c : ℕ) (D : Descr) : Decidable (DescrOK r c D) := by
  unfold DescrOK
  infer_instance

/-- Modelled from the spec: the canonical owning process of global entry
`(i, j)` under a descriptor — the grid coordinates obtained by constraining
`(0,0)` with the row dimension and then the column dimension. -/
def ownerOf (r c : ℕ) (D : Descr) (i j : ℕ) : ℕ × ℕ :=
  applyDim r c D.colKind D.colAlign
    (canonCoord (D.colKind.modOf r c) D.colAlign j)
    (applyDim r c D.rowKind D.rowAlign
      (canonCoord (D.rowKind.modOf r c) D.rowAlign i) (0, 0))

/-- Modelled from the spec: a Distributed Matrix — global extents, a
Distribution Descriptor, and per-process Local Storage (a dense local buffer
per grid coordinate). -/
structure DMat (R : Type) : Type where
  m : ℕ
  n : ℕ
  descr : Descr
  loc : ℕ × ℕ → ℕ → ℕ → R

/-- Modelled from the spec: the global value of entry `(i, j)`, read from the
canonical owner's local storage. -/
def globalVal {R : Type} (r c : ℕ) (M : DMat R) (i j : ℕ) : R :=
  M.loc (ownerOf r c M.descr i j)
    (globalToLocal (M.descr.rowKind.modOf r c) i)
    (globalToLocal (M.descr.colKind.modOf r c) j)

/-- Modelled from the spec (section 4.2): `Redistribute` populates the
destination's local entries "such that, for every global index, destination
value equals source value": each process's buffer at local position
`(li, lj)` receives the source's global value at the global index that
position holds under the destination descriptor.  No arithmetic is performed
on the values. -/
def Redistribute {R : Type} (r c : ℕ) (M : DMat R) (D2 : Descr) : DMat R :=
  { m := M.m
    n := M.n
    descr := D2
    loc := fun p li lj =>
      globalVal r c M
        (localToGlobal (D2.rowKind.modOf r c) D2.rowAlign
          (D2.rowKind.coordOf r c p) li)
        (localToGlobal (D2.colKind.modOf r c) D2.colAlign
          (D2.colKind.coordOf r c p) lj) }

/-- Modelled from the spec: process `p` owns global index `i` along one
descriptor dimension (spec section 3's ownership rule; for a single-process
dimension the owner is the process with linear rank equal to the
alignment). -/
def ownsDim (r c : ℕ) (k : DistKind) (a : ℕ) (p : ℕ × ℕ) (i : ℕ) : Prop :=
  match k with
  | .singleProc => p = (a % r, a / r)
  | _ => i % k.modOf r c = (k.coordOf r c p + a) % k.modOf r c

instance (r c : ℕ) (k : DistKind) (a : ℕ) (p : ℕ × ℕ) (i : ℕ) :
    Decidable (ownsDim r c k a p i) := by
  unfold ownsDim
  cases k <;> infer_instance

/-- Modelled from the spec: a distributed matrix is consistent when every
owning process's local copy of an in-range entry agrees with the canonical
global value (the replicated copies of an entry all hold the same bits). -/
def Consistent {R : Type} [DecidableEq R] (r c : ℕ) (M : DMat R) : Prop :=
  ∀ pr : ℕ, pr < r → ∀ pc : ℕ, pc < c → ∀ i : ℕ, i < M.m → ∀ j : ℕ, j < M.n →
    ownsDim r c M.descr.rowKind M.descr.rowAlign (pr, pc) i →
    ownsDim r c M.descr.colKind M.descr.colAlign (pr, pc) j →
    M.loc (pr, pc) (globalToLocal (M.descr.rowKind.modOf r c) i)
      (globalToLocal (M.descr.colKind.modOf r c) j) = globalVal r c M i j

set_option synthInstance.maxSize 512 in
instance {R : Type} [DecidableEq R] (r c : ℕ) (M : DMat R) :
    Decidable (Consistent r c M) := by
  unfold Consistent
  infer_instance

/-!
Error checking of `BLAS::Internal::HerkUN` (HerkUN.cpp lines 29-52): the grid
check precedes the conformality check, each `throw exception()`.
-/

/-- The error reports of `HerkUN`'s entry checks: "A and C must be
distributed over the same grid." and "Nonconformal HerkUN" with the four
printed dimensions `A ~ Ah x Aw`, `C ~ Ch x Cw`. -/
inductive HerkCheckError : Type
  | gridMismatch
  | nonconformal (aH aW cH cW : ℕ)
deriving DecidableEq

/-- The entry checks of `BLAS::Internal::HerkUN`: throw if `A` and `C`
reference different grids (compared here by grid identity `gA`, `gC`), then
throw reporting the dimensions if `A.Height() != C.Height()` or
`A.Height() != C.Width()`; otherwise fall through to the algorithm. -/
def HerkUNCheck (gA gC aH aW cH cW : ℕ) : Except HerkCheckError Unit :=
  if gA ≠ gC then .error .gridMismatch
  else if aH ≠ cH ∨ aH ≠ cW then .error (.nonconformal aH aW cH cW)
  else .ok ()

/-!
Termination control flow of `lp::affine::IPF` (IPF.cpp lines 107-181, the
dense overload).  The numerical work of one iteration is abstracted by the
trace `err : ℕ → ℚ` of relative errors the convergence check computes
(`relError = Max(Max(Max(objConv,rbConv),rcConv),rhConv)` at iteration
`numIts`); the claim concerns only how the loop reacts to that value.
-/

/-- The ways the cited region of `IPF` can finish: fall out of the loop or
break (a normal return), or raise the
"Maximum number of iterations (..) exceeded" `RuntimeError`. -/
inductive IPFResult : Type
  | ok (numIts : ℕ)
  | maxItsError (numIts : ℕ)
deriving DecidableEq

/-- The iteration structure of `IPF`'s main loop from iteration `numIts`:
`for( Int numIts=0; numIts<=ctrl.maxIts; ++numIts )` — leave the loop when
the counter passes `maxIts`; inside, `break` as soon as
`relError <= ctrl.targetTol`; then raise the fatal maximum-iterations error
when `numIts == ctrl.maxIts && relError > ctrl.minTol`; otherwise take the
step and continue with the next iteration. -/
def IPFLoop (maxIts : ℕ) (targetTol minTol : ℚ) (err : ℕ → ℚ)
    (numIts : ℕ) : IPFResult :=
  if maxIts < numIts then .ok numIts
  else if err numIts ≤ targetTol then .ok numIts
  else if numIts = maxIts ∧ minTol < err numIts then .maxItsError numIts
  else IPFLoop maxIts targetTol minTol err (numIts + 1)
termination_by maxIts + 1 - numIts
decreasing_by omega

/-- `lp::affine::IPF`: run the iteration from `numIts = 0`. -/
def IPF (maxIts : ℕ) (targetTol minTol : ℚ) (err : ℕ → ℚ) : IPFResult :=
  IPFLoop maxIts targetTol minTol err 0

/-!
The C wrappers of `matrices-C.cpp` (`ElCauchyLike_` / `ElCauchyLikeDist_`)
and `adjoint::PartialColFilter`.  The underlying routines `CauchyLike` and
`transpose::PartialColFilter` are not among the sampled sources, so both
wrappers are parametrised by the routine they delegate to; the claims hold
for every instantiation.
-/

/-- The C error code returned by the wrappers; the `EL_CATCH` path would
produce other codes, but no statement in the wrapper bodies throws. -/
inductive ElError : Type
  | success
  | caught
deriving DecidableEq

/-- `ElCauchyLike_` from matrices-C.cpp: builds the `std::vector`s `r`, `s`,
`x`, `y` from the input buffers, then returns `EL_SUCCESS` — the body never
invokes `CauchyLike`, so the output matrix `A` is left untouched.  The
missing call is supplied as the parameter `cauchyLike` so that the contrast
with the distributed wrapper is expressible. -/
def ElCauchyLike {R : Type}
    (cauchyLike : List R → List R → List R → List R → (ℕ → ℕ → R) → ℕ → ℕ → R)
    (A : ℕ → ℕ → R) (rSize sSize xSize ySize : ℕ)
    (rBuf sBuf xBuf yBuf : ℕ → R) : ElError × (ℕ → ℕ → R) :=
  ((fun (_r _s _x _y : List R) => ElError.success)
      ((List.range rSize).map rBuf) ((List.range sSize).map sBuf)
      ((List.range xSize).map xBuf) ((List.range ySize).map yBuf),
    A)

/-- `ElCauchyLikeDist_` from matrices-C.cpp: builds the vectors `r`, `s`,
`x`, `y` from the input buffers, invokes `CauchyLike( *Reinterpret(A),
r, s, x, y )` on the output matrix, and returns `EL_SUCCESS`. -/
def ElCauchyLikeDist {R : Type}
    (cauchyLike : List R → List R → List R → List R → (ℕ → ℕ → R) → ℕ → ℕ → R)
    (A : ℕ → ℕ → R) (rSize sSize xSize ySize : ℕ)
    (rBuf sBuf xBuf yBuf : ℕ → R) : ElError × (ℕ → ℕ → R) :=
  (ElError.success,
    cauchyLike ((List.range rSize).map rBuf) ((List.range sSize).map sBuf)
      ((List.range xSize).map xBuf) ((List.range ySize).map yBuf) A)

/-- `adjoint::PartialColFilter( A, B, conjugate )` from
Adjoint/PartialColFilter.cpp: both overloads forward to
`transpose::PartialColFilter( A, B, true )` — the `conjugate` argument is
never read.  The delegate (not among the sampled sources) is the parameter
`tf`, taking the source matrix, the destination and the conjugation flag and
returning the written destination. -/
def AdjointPartialColFilter {M : Type} (tf : M → M → Bool → M)
    (A B : M) (conjugate : Bool) : M :=
  tf A B true

/-!
Lemmas about the rank-k update.
-/

section HerkLemmas

variable {R : Type} [CommRing R] [StarRing R]

/-- The base-case kernel computes, entrywise, exactly the masked full
multiply of the spec: its three multiplies (one on `CTR`, two masked on the
diagonal halves) cover the block's upper triangle once each. -/
lemma HerkUNUpdateKernel_eval (alpha : R) (A : ℕ → ℕ → R) (tOff w : ℕ)
    (beta : R) (C : ℕ → ℕ → R) (off m i j : ℕ) :
    HerkUNUpdateKernel alpha A tOff w beta C off m i j =
      SpecMaskedFullMultiply alpha A tOff w beta C off m i j := by
  simp only [HerkUNUpdateKernel, SpecMaskedFullMultiply, MaskedAxpyRegion,
    GemmRegion, Scal]
  split_ifs <;> first | ring1 | (exfalso; omega)

/-- `HerkUNUpdate` writes only inside its `m x m` diagonal block at `off`. -/
lemma HerkUNUpdate_frame {gw nb : ℕ} {alpha : R} {A : ℕ → ℕ → R}
    {tOff w : ℕ} {beta : R} :
    ∀ m off (C : ℕ → ℕ → R) i j,
      ¬(off ≤ i ∧ i < off + m ∧ off ≤ j ∧ j < off + m) →
      HerkUNUpdate gw nb alpha A tOff w beta C off m i j = C i j := by
  intro m
  induction m using Nat.strong_induction_on with
  | _ m IH =>
    intro off C i j hout
    rw [HerkUNUpdate]
    split_ifs with hbase
    · rw [HerkUNUpdateKernel_eval]
      simp only [SpecMaskedFullMultiply]
      rw [if_neg hout]
    · rw [IH (m - m / 2) (by omega) _ _ i j (by omega)]
      rw [IH (m / 2) (by omega) _ _ i j (by omega)]
      simp only [GemmRegion]
      rw [if_neg (by omega)]

/-- Correctness of `HerkUNUpdate` on the declared (upper) triangle of its
block: for every block entry `(i,j)` with `i ≤ j`, the result is
`beta * C(i,j) + alpha * sum_t A(i,t) conj(A(j,t))` over the panel,
whichever mix of recursion and base-case kernel the threshold selects. -/
lemma HerkUNUpdate_upper (gw nb : ℕ) (alpha : R) (A : ℕ → ℕ → R)
    (tOff w : ℕ) (beta : R) :
    ∀ m off (C : ℕ → ℕ → R) i j,
      off ≤ i → i < off + m → off ≤ j → j < off + m → i ≤ j →
      HerkUNUpdate gw nb alpha A tOff w beta C off m i j =
        beta * C i j + alpha * herkContrib A tOff w i j := by
  intro m
  induction m using Nat.strong_induction_on with
  | _ m IH =>
    intro off C i j h1 h2 h3 h4 hij
    rw [HerkUNUpdate]
    split_ifs with hbase
    · rw [HerkUNUpdateKernel_eval]
      simp only [SpecMaskedFullMultiply]
      rw [if_pos ⟨h1, h2, h3, h4⟩, if_neg (by omega)]
    · by_cases hi : i < off + m / 2
      · by_cases hj : j < off + m / 2
        · -- entry in CTL: untouched by the CTR Gemm and the CBR recursion
          rw [HerkUNUpdate_frame (m - m / 2) (off + m / 2) _ i j (by omega)]
          rw [IH (m / 2) (by omega) off _ i j h1 hi h3 hj hij]
          simp only [GemmRegion]
          rw [if_neg (by omega)]
        · -- entry in CTR: written by the Gemm, untouched by both recursions
          rw [HerkUNUpdate_frame (m - m / 2) (off + m / 2) _ i j (by omega)]
          rw [HerkUNUpdate_frame (m / 2) off _ i j (by omega)]
          simp only [GemmRegion]
          rw [if_pos ⟨h1, hi, by omega, h4⟩]
          ring
      · -- `i ≤ j` forces the entry into CBR
        rw [IH (m - m / 2) (by omega) (off + m / 2) _ i j (by omega) (by omega)
          (by omega) (by omega) hij]
        rw [HerkUNUpdate_frame (m / 2) off _ i j (by omega)]
        simp only [GemmRegion]
        rw [if_neg (by omega)]

/-- With accumulation factor `1` (the only factor `HerkUN` passes inward),
`HerkUNUpdate` leaves every strictly-lower entry of its block unchanged: the
`CTR` Gemm and the masked diagonal updates never write below the diagonal,
and the `CBL` quadrant is never touched at all. -/
lemma HerkUNUpdate_lower_one (gw nb : ℕ) (alpha : R) (A : ℕ → ℕ → R)
    (tOff w : ℕ) :
    ∀ m off (C : ℕ → ℕ → R) i j,
      off ≤ i → i < off + m → off ≤ j → j < off + m → j < i →
      HerkUNUpdate gw nb alpha A tOff w (1 : R) C off m i j = C i j := by
  intro m
  induction m using Nat.strong_induction_on with
  | _ m IH =>
    intro off C i j h1 h2 h3 h4 hji
    rw [HerkUNUpdate]
    split_ifs with hbase
    · rw [HerkUNUpdateKernel_eval]
      simp only [SpecMaskedFullMultiply]
      rw [if_pos ⟨h1, h2, h3, h4⟩, if_pos hji, one_mul]
    · by_cases hi : i < off + m / 2
      · -- `j < i` forces the entry into CTL
        rw [HerkUNUpdate_frame (m - m / 2) (off + m / 2) _ i j (by omega)]
        rw [IH (m / 2) (by omega) off _ i j h1 hi h3 (by omega) hji]
        simp only [GemmRegion]
        rw [if_neg (by omega)]
      · by_cases hj : j < off + m / 2
        · -- entry in CBL: never written in the recursive branch
          rw [HerkUNUpdate_frame (m - m / 2) (off + m / 2) _ i j (by omega)]
          rw [HerkUNUpdate_frame (m / 2) off _ i j (by omega)]
          simp only [GemmRegion]
          rw [if_neg (by omega)]
        · -- entry in CBR
          rw [IH (m - m / 2) (by omega) (off + m / 2) _ i j (by omega)
            (by omega) (by omega) (by omega) hji]
          rw [HerkUNUpdate_frame (m / 2) off _ i j (by omega)]
          simp only [GemmRegion]
          rw [if_neg (by omega)]

lemma sumT_congr {f g : ℕ → R} : ∀ n, (∀ t, t < n → f t = g t) →
    sumT n f = sumT n g := by
  intro n
  induction n with
  | zero => intro _; rfl
  | succ n ih =>
    intro h
    simp only [sumT]
    rw [ih fun t ht => h t (by omega), h n (by omega)]

lemma sumT_add (f : ℕ → R) (a b : ℕ) :
    sumT (a + b) f = sumT a f + sumT b fun t => f (a + t) := by
  induction b with
  | zero => simp [sumT]
  | succ n ih =>
    rw [Nat.add_succ]
    simp only [sumT]
    rw [ih]
    ring

/-- Splitting the contraction range matches splitting the panel: the
contribution of columns `[tOff, tOff + w1 + w2)` is the contribution of
`[tOff, tOff + w1)` plus that of `[tOff + w1, tOff + w1 + w2)`. -/
lemma herkContrib_split (A : ℕ → ℕ → R) (tOff w1 w2 i j : ℕ) :
    herkContrib A tOff (w1 + w2) i j =
      herkContrib A tOff w1 i j + herkContrib A (tOff + w1) w2 i j := by
  simp only [herkContrib]
  rw [sumT_add]
  congr 1
  exact sumT_congr w2 fun t _ => by rw [Nat.add_assoc]

/-- Running the panel loop from column offset `tOff` adds, to each in-range
upper-triangle entry, `alpha` times the contribution of the remaining
columns `[tOff, k)`. -/
lemma HerkUNPanelLoop_upper {gw nb : ℕ} {alpha : R} {A : ℕ → ℕ → R}
    {m k : ℕ} (hnb : 0 < nb) {i j : ℕ}
    (hi : i < m) (hj : j < m) (hij : i ≤ j) :
    ∀ d tOff (C : ℕ → ℕ → R), k - tOff = d →
      HerkUNPanelLoop gw nb alpha A m k C tOff i j =
        C i j + alpha * herkContrib A tOff (k - tOff) i j := by
  intro d
  induction d using Nat.strong_induction_on with
  | _ d IH =>
    intro tOff C hd
    rw [HerkUNPanelLoop]
    split_ifs with hgo
    · set w := min nb (k - tOff) with hwdef
      rw [IH (k - (tOff + w)) (by omega) _ _ rfl]
      rw [HerkUNUpdate_upper gw nb alpha A tOff w (1 : R) m 0 C i j (by omega)
        (by omega) (by omega) (by omega) hij]
      have hX : w + (k - (tOff + w)) = k - tOff := by omega
      have hsplit : herkContrib A tOff (k - tOff) i j =
          herkContrib A tOff w i j +
            herkContrib A (tOff + w) (k - (tOff + w)) i j := by
        rw [← hX]
        exact herkContrib_split A tOff w (k - (tOff + w)) i j
      rw [hsplit]
      ring
    · have h0 : k - tOff = 0 := by omega
      rw [h0]
      simp only [herkContrib, sumT]
      ring

/-- The panel loop never changes a strictly-lower in-range entry of `C`. -/
lemma HerkUNPanelLoop_lower {gw nb : ℕ} {alpha : R} {A : ℕ → ℕ → R}
    {m k : ℕ} {i j : ℕ} (hi : i < m) (hj : j < m) (hji : j < i) :
    ∀ d tOff (C : ℕ → ℕ → R), k - tOff = d →
      HerkUNPanelLoop gw nb alpha A m k C tOff i j = C i j := by
  intro d
  induction d using Nat.strong_induction_on with
  | _ d IH =>
    intro tOff C hd
    rw [HerkUNPanelLoop]
    split_ifs with hgo
    · rw [IH (k - (tOff + min nb (k - tOff))) (by omega) _ _ rfl]
      exact HerkUNUpdate_lower_one gw nb alpha A tOff (min nb (k - tOff)) m 0
        C i j (by omega) (by omega) (by omega) (by omega) hji
    · rfl

/-- The panel loop is a translation on each in-range entry: the amount it
adds does not depend on the incoming state of `C` (each panel's update adds
a state-independent contribution). -/
lemma HerkUNPanelLoop_shift (gw nb : ℕ) (alpha : R) (A : ℕ → ℕ → R)
    (m k : ℕ) {i j : ℕ} (hi : i < m) (hj : j < m) :
    ∀ d tOff (C C' : ℕ → ℕ → R), k - tOff = d →
      HerkUNPanelLoop gw nb alpha A m k C tOff i j - C i j =
        HerkUNPanelLoop gw nb alpha A m k C' tOff i j - C' i j := by
  intro d
  induction d using Nat.strong_induction_on with
  | _ d IH =>
    intro tOff C C' hd
    conv_lhs => rw [HerkUNPanelLoop]
    conv_rhs => rw [HerkUNPanelLoop]
    split_ifs with hgo
    · have hIH := IH (k - (tOff + min nb (k - tOff))) (by omega)
        (tOff + min nb (k - tOff))
        (HerkUNUpdate gw nb alpha A tOff (min nb (k - tOff)) 1 C 0 m)
        (HerkUNUpdate gw nb alpha A tOff (min nb (k - tOff)) 1 C' 0 m) rfl
      by_cases hij : i ≤ j
      · have hC := HerkUNUpdate_upper gw nb alpha A tOff (min nb (k - tOff))
          (1 : R) m 0 C i j (by omega) (by omega) (by omega) (by omega) hij
        have hC' := HerkUNUpdate_upper gw nb alpha A tOff (min nb (k - tOff))
          (1 : R) m 0 C' i j (by omega) (by omega) (by omega) (by omega) hij
        linear_combination hIH + hC - hC'
      · have hC := HerkUNUpdate_lower_one gw nb alpha A tOff
          (min nb (k - tOff)) m 0 C i j (by omega) (by omega) (by omega)
          (by omega) (by omega)
        have hC' := HerkUNUpdate_lower_one gw nb alpha A tOff
          (min nb (k - tOff)) m 0 C' i j (by omega) (by omega) (by omega)
          (by omega) (by omega)
        linear_combination hIH + hC - hC'
    · simp

end HerkLemmas

/-!
Lemmas about the redistribution model.
-/

section RedistLemmas

lemma DistKind.modOf_pos {r c : ℕ} (hr : 0 < r) (hc : 0 < c)
    (k : DistKind) : 0 < k.modOf r c := by
  cases k <;>
    first
      | exact hr
      | exact hc
      | exact Nat.mul_pos hr hc
      | exact Nat.one_pos

/-- The canonical coordinate solves the ownership congruence:
`(canonCoord M a i + a) mod M = i mod M`. -/
lemma canonCoord_add_mod (M a i : ℕ) (hM : 0 < M) :
    (canonCoord M a i + a) % M = i % M := by
  unfold canonCoord
  rw [Nat.mod_add_mod]
  have hq := Nat.div_add_mod a M
  have hrem : a % M < M := Nat.mod_lt _ hM
  have h1 : i % M + (M - a % M) + a = i % M + M * (1 + a / M) := by
    have : M * (1 + a / M) = M + M * (a / M) := by ring
    omega
  rw [h1, Nat.add_mul_mod_self_left]
  exact Nat.mod_mod_of_dvd i (dvd_refl M)

/-- Local position `i / M` of the canonical owner stores exactly global
index `i`. -/
lemma localToGlobal_canonCoord (M a i : ℕ) (hM : 0 < M) :
    localToGlobal M a (canonCoord M a i) (i / M) = i := by
  unfold localToGlobal
  rw [canonCoord_add_mod M a i hM, Nat.mod_add_div']

/-- The local position of the global index a process stores at `l` is `l`
again. -/
lemma localToGlobal_div (M a coord l : ℕ) (hM : 0 < M) :
    localToGlobal M a coord l / M = l := by
  unfold localToGlobal
  rw [Nat.add_mul_div_right _ _ hM,
    Nat.div_eq_of_lt (Nat.mod_lt _ hM), Nat.zero_add]

/-- Every process holds, at each local position of each dimension, a global
index it owns along that dimension. -/
lemma ownsDim_localToGlobal (r c : ℕ) (k : DistKind) (a : ℕ) (p : ℕ × ℕ)
    (li : ℕ) (hsp : k = DistKind.singleProc → p = (a % r, a / r)) :
    ownsDim r c k a p
      (localToGlobal (k.modOf r c) a (k.coordOf r c p) li) := by
  cases k <;>
    simp only [ownsDim, localToGlobal, Nat.add_mul_mod_self_right] <;>
    first
      | exact Nat.mod_mod_of_dvd _ (dvd_refl _)
      | exact hsp rfl

/-- Reading the row coordinate of the canonical owner recovers the canonical
row coordinate: the column dimension of a valid descriptor constrains only
grid axes the row dimension does not use. -/
lemma coordOf_ownerOf_row (r c : ℕ) (D : Descr) (hOK : DescrOK r c D)
    (i j : ℕ) :
    DistKind.coordOf r c D.rowKind (ownerOf r c D i j) =
      canonCoord (DistKind.modOf r c D.rowKind) D.rowAlign i := by
  obtain ⟨rk, ra, ck, ca⟩ := D
  obtain ⟨h1, h2, -, -⟩ := hOK
  cases rk <;> cases ck <;>
    simp_all [ownerOf, applyDim, DistKind.coordOf, DistKind.usesRowAxis,
      DistKind.usesColAxis, canonCoord, DistKind.modOf, Nat.mod_one,
      Nat.mod_add_div'] <;>
    first
      | (rw [← Nat.mod_mod_of_dvd _ (dvd_mul_right r c)]
         apply Nat.mod_add_div')
      | (rw [← Nat.mod_mod_of_dvd _ (dvd_mul_left c r)]
         apply Nat.mod_add_div')

/-- Reading the column coordinate of the canonical owner recovers the
canonical column coordinate (the column dimension is applied last). -/
lemma coordOf_ownerOf_col (r c : ℕ) (D : Descr) (i j : ℕ) :
    DistKind.coordOf r c D.colKind (ownerOf r c D i j) =
      canonCoord (DistKind.modOf r c D.colKind) D.colAlign j := by
  obtain ⟨rk, ra, ck, ca⟩ := D
  cases ck <;>
    simp_all [ownerOf, applyDim, DistKind.coordOf, canonCoord,
      DistKind.modOf, Nat.mod_one, Nat.mod_add_div'] <;>
    first
      | (rw [← Nat.mod_mod_of_dvd _ (dvd_mul_right r c)]
         apply Nat.mod_add_div')
      | (rw [← Nat.mod_mod_of_dvd _ (dvd_mul_left c r)]
         apply Nat.mod_add_div')

/-- Redistribution preserves every global value: the destination reads each
entry back from the canonical owner it populated ("for every global index,
destination value equals source value", spec section 4.2). -/
lemma globalVal_Redistribute {R : Type} (r c : ℕ) (hr : 0 < r) (hc : 0 < c)
    (M : DMat R) (D2 : Descr) (hOK : DescrOK r c D2) (i j : ℕ) :
    globalVal r c (Redistribute r c M D2) i j = globalVal r c M i j := by
  show globalVal r c M _ _ = globalVal r c M i j
  rw [show (Redistribute r c M D2).descr = D2 from rfl]
  rw [coordOf_ownerOf_row r c D2 hOK i j, coordOf_ownerOf_col r c D2 i j]
  unfold globalToLocal
  rw [localToGlobal_canonCoord _ _ _ (DistKind.modOf_pos hr hc _),
    localToGlobal_canonCoord _ _ _ (DistKind.modOf_pos hr hc _)]

end RedistLemmas

/-!
The claims.
-/

/-- C1: for every call `HerkUN(alpha, A, beta, C)` with `A` of shape `m x k`
and `C` of shape `m x m`, after the call every global entry `(i,j)` of the
declared Upper triangle (`i ≤ j`) satisfies
`C(i,j) = beta * C_original(i,j) + alpha * sum_t A(i,t) * conj(A(j,t))`
in exact arithmetic. -/
theorem HerkUN_upper_correct {R : Type} [CommRing R] [StarRing R]
    (gw nb : ℕ) (alpha : R) (A : ℕ → ℕ → R) (m k : ℕ) (beta : R)
    (C : ℕ → ℕ → R) (i j : ℕ) (hnb : 0 < nb) (hi : i < m) (hj : j < m)
    (hij : i ≤ j) :
    HerkUN gw nb alpha A m k beta C i j =
      beta * C i j + alpha * herkContrib A 0 k i j := by
  unfold HerkUN
  rw [HerkUNPanelLoop_upper hnb hi hj hij (k - 0) 0 (Scal beta C 0 m 0 m) rfl]
  simp [Scal, hi, hj]

theorem HerkUN_upper_correct_witness :
    0 < 1 ∧ (0 : ℕ) < 2 ∧ (1 : ℕ) < 2 ∧ (0 : ℕ) ≤ 1 ∧
    HerkUN 1 1 (2 : ℤ) (fun i j => (i + 2 * j : ℤ)) 2 2 3
        (fun i j => (i * j + 1 : ℤ)) 0 1 =
      3 * (fun i j => (i * j + 1 : ℤ)) 0 1 +
        2 * herkContrib (fun i j => (i + 2 * j : ℤ)) 0 2 0 1 :=
  ⟨Nat.one_pos, by decide, by decide, by decide,
    HerkUN_upper_correct 1 1 2 (fun i j => (i + 2 * j : ℤ)) 2 2 3
      (fun i j => (i * j + 1 : ℤ)) 0 1 Nat.one_pos (by decide) (by decide)
      (by decide)⟩

/-- C2: on every entry of the declared triangle of its block, the recursive
path of `HerkUNUpdate` (one Gemm on the top-right quadrant, recursion on the
two diagonal quadrants, split at `half = m/2`) and the base-case kernel
`HerkUNUpdateKernel` produce equal results in exact arithmetic, wherever the
base-case threshold `2 * gridWidth * blocksize` cuts off the recursion. -/
theorem HerkUNUpdate_refines_kernel {R : Type} [CommRing R] [StarRing R]
    (gw nb : ℕ) (alpha : R) (A : ℕ → ℕ → R) (tOff w : ℕ) (beta : R)
    (C : ℕ → ℕ → R) (off m i j : ℕ) (h1 : off ≤ i) (h2 : i < off + m)
    (h3 : off ≤ j) (h4 : j < off + m) (hij : i ≤ j) :
    HerkUNUpdate gw nb alpha A tOff w beta C off m i j =
      HerkUNUpdateKernel alpha A tOff w beta C off m i j := by
  rw [HerkUNUpdate_upper gw nb alpha A tOff w beta m off C i j h1 h2 h3 h4
    hij, HerkUNUpdateKernel_eval]
  simp only [SpecMaskedFullMultiply]
  rw [if_pos ⟨h1, h2, h3, h4⟩, if_neg (by omega)]

theorem HerkUNUpdate_refines_kernel_witness :
    (0 : ℕ) ≤ 1 ∧ (1 : ℕ) < 0 + 4 ∧ (0 : ℕ) ≤ 2 ∧ (2 : ℕ) < 0 + 4 ∧
    (1 : ℕ) ≤ 2 ∧
    HerkUNUpdate 1 1 (7 : ℤ) (fun i j => (i * i + j : ℤ)) 0 1 5
        (fun i j => (i + 3 * j : ℤ)) 0 4 1 2 =
      HerkUNUpdateKernel 7 (fun i j => (i * i + j : ℤ)) 0 1 5
        (fun i j => (i + 3 * j : ℤ)) 0 4 1 2 :=
  ⟨by decide, by decide, by decide, by decide, by decide,
    HerkUNUpdate_refines_kernel 1 1 7 (fun i j => (i * i + j : ℤ)) 0 1 5
      (fun i j => (i + 3 * j : ℤ)) 0 4 1 2 (by decide) (by decide) (by decide)
      (by decide) (by decide)⟩

/-- C3: when `m < 2 * gridWidth * nb` the update takes the base case — it
does not recurse but runs `HerkUNUpdateKernel` — and the result equals, on
every entry, the spec's base case: one dense multiply producing the full
`m x m` contribution, masked to the declared Upper triangle (the
complementary triangle of the computed block zeroed) and accumulated
into `C`. -/
theorem HerkUNUpdate_base_case {R : Type} [CommRing R] [StarRing R]
    (gw nb : ℕ) (alpha : R) (A : ℕ → ℕ → R) (tOff w : ℕ) (beta : R)
    (C : ℕ → ℕ → R) (off m i j : ℕ) (hbase : m < 2 * gw * nb) :
    HerkUNUpdate gw nb alpha A tOff w beta C off m i j =
      HerkUNUpdateKernel alpha A tOff w beta C off m i j ∧
    HerkUNUpdate gw nb alpha A tOff w beta C off m i j =
      SpecMaskedFullMultiply alpha A tOff w beta C off m i j := by
  constructor
  · rw [HerkUNUpdate, if_pos (Or.inl hbase)]
  · rw [HerkUNUpdate, if_pos (Or.inl hbase)]
    exact HerkUNUpdateKernel_eval alpha A tOff w beta C off m i j

theorem HerkUNUpdate_base_case_witness :
    (3 : ℕ) < 2 * 2 * 1 ∧
    (HerkUNUpdate 2 1 (4 : ℤ) (fun i j => (2 * i + j : ℤ)) 1 2 6
        (fun i j => (i + j : ℤ)) 0 3 2 1 =
      HerkUNUpdateKernel 4 (fun i j => (2 * i + j : ℤ)) 1 2 6
        (fun i j => (i + j : ℤ)) 0 3 2 1 ∧
    HerkUNUpdate 2 1 (4 : ℤ) (fun i j => (2 * i + j : ℤ)) 1 2 6
        (fun i j => (i + j : ℤ)) 0 3 2 1 =
      SpecMaskedFullMultiply 4 (fun i j => (2 * i + j : ℤ)) 1 2 6
        (fun i j => (i + j : ℤ)) 0 3 2 1) :=
  ⟨by decide,
    HerkUNUpdate_base_case 2 1 4 (fun i j => (2 * i + j : ℤ)) 1 2 6
      (fun i j => (i + j : ℤ)) 0 3 2 1 (by decide)⟩

/-- C4: `HerkUN` scales `C` by `beta` exactly once, before any panel is
processed (so the call with zero panels returns exactly `beta * C`), and the
panel loop then accumulates with inner factor `1`: on every in-range entry
the result decomposes as `beta * C(i,j)` plus the accumulation obtained with
`beta = 0`, i.e. no panel iteration rescales `C` by the caller's `beta`
again. -/
theorem HerkUN_scales_beta_once {R : Type} [CommRing R] [StarRing R]
    (gw nb : ℕ) (alpha : R) (A : ℕ → ℕ → R) (m k : ℕ) (beta : R)
    (C : ℕ → ℕ → R) (i j : ℕ) (hi : i < m) (hj : j < m) :
    HerkUN gw nb alpha A m 0 beta C i j = beta * C i j ∧
    HerkUN gw nb alpha A m k beta C i j =
      beta * C i j + HerkUN gw nb alpha A m k 0 C i j := by
  constructor
  · unfold HerkUN
    rw [HerkUNPanelLoop, if_neg (by omega)]
    simp [Scal, hi, hj]
  · have hs := HerkUNPanelLoop_shift gw nb alpha A m k hi hj (k - 0) 0
      (Scal beta C 0 m 0 m) (Scal 0 C 0 m 0 m) rfl
    have h1 : Scal beta C 0 m 0 m i j = beta * C i j := by
      simp [Scal, hi, hj]
    have h2 : Scal (0 : R) C 0 m 0 m i j = 0 := by
      simp [Scal, hi, hj]
    unfold HerkUN
    linear_combination hs + h1 - h2

theorem HerkUN_scales_beta_once_witness :
    (1 : ℕ) < 2 ∧ (0 : ℕ) < 2 ∧
    (HerkUN 1 1 (3 : ℤ) (fun i j => (i + j + 1 : ℤ)) 2 0 5
        (fun i j => (2 * i + j : ℤ)) 1 0 =
      5 * (fun i j => (2 * i + j : ℤ)) 1 0 ∧
    HerkUN 1 1 (3 : ℤ) (fun i j => (i + j + 1 : ℤ)) 2 1 5
        (fun i j => (2 * i + j : ℤ)) 1 0 =
      5 * (fun i j => (2 * i + j : ℤ)) 1 0 +
        HerkUN 1 1 3 (fun i j => (i + j + 1 : ℤ)) 2 1 0
          (fun i j => (2 * i + j : ℤ)) 1 0) :=
  ⟨by decide, by decide,
    HerkUN_scales_beta_once 1 1 3 (fun i j => (i + j + 1 : ℤ)) 2 1 5
      (fun i j => (2 * i + j : ℤ)) 1 0 (by decide) (by decide)⟩

/-- C8: after `HerkUN(alpha, A, beta, C)` declared Upper, every entry of `C`
strictly below the diagonal equals exactly `beta` times its original value:
the initial `Scal` multiplies both triangles of `C` by `beta`, and the
subsequent updates (`MakeTrapezoidal` to Upper before `Axpy`, and the
strictly-upper `CTR` Gemm) add exactly zero below the diagonal. -/
theorem HerkUN_strict_lower_frame {R : Type} [CommRing R] [StarRing R]
    (gw nb : ℕ) (alpha : R) (A : ℕ → ℕ → R) (m k : ℕ) (beta : R)
    (C : ℕ → ℕ → R) (i j : ℕ) (hi : i < m) (hj : j < m) (hji : j < i) :
    HerkUN gw nb alpha A m k beta C i j = beta * C i j := by
  unfold HerkUN
  rw [HerkUNPanelLoop_lower hi hj hji (k - 0) 0 (Scal beta C 0 m 0 m) rfl]
  simp [Scal, hi, hj]

theorem HerkUN_strict_lower_frame_witness :
    (1 : ℕ) < 3 ∧ (0 : ℕ) < 3 ∧ (0 : ℕ) < 1 ∧
    HerkUN 1 2 (2 : ℤ) (fun i j => (i * j + i : ℤ)) 3 4 7
        (fun i j => (i + 5 * j : ℤ)) 1 0 =
      7 * (fun i j => (i + 5 * j : ℤ)) 1 0 :=
  ⟨by decide, by decide, by decide,
    HerkUN_strict_lower_frame 1 2 2 (fun i j => (i * j + i : ℤ)) 3 4 7
      (fun i j => (i + 5 * j : ℤ)) 1 0 (by decide) (by decide) (by decide)⟩

/-- C5: redistributing a consistent matrix from its descriptor `D1` to any
supported descriptor `D2` and back to `D1` reproduces every local entry
bitwise (no arithmetic is performed on the values): at every grid process
and every local position holding an in-range global entry, the round-tripped
matrix stores exactly the original value, and it carries descriptor `D1`
again. -/
theorem Redistribute_roundtrip {R : Type} [DecidableEq R] (r c : ℕ)
    (M : DMat R) (D1 D2 : Descr) (p : ℕ × ℕ) (li lj : ℕ)
    (hr : 0 < r) (hc : 0 < c) (hD2 : DescrOK r c D2)
    (hdescr : M.descr = D1) (hcons : Consistent r c M)
    (hp1 : p.1 < r) (hp2 : p.2 < c)
    (hsprow : D1.rowKind = DistKind.singleProc →
      p = (D1.rowAlign % r, D1.rowAlign / r))
    (hspcol : D1.colKind = DistKind.singleProc →
      p = (D1.colAlign % r, D1.colAlign / r))
    (hgi : localToGlobal (D1.rowKind.modOf r c) D1.rowAlign
      (D1.rowKind.coordOf r c p) li < M.m)
    (hgj : localToGlobal (D1.colKind.modOf r c) D1.colAlign
      (D1.colKind.coordOf r c p) lj < M.n) :
    (Redistribute r c (Redistribute r c M D2) D1).loc p li lj =
      M.loc p li lj ∧
    (Redistribute r c (Redistribute r c M D2) D1).descr = D1 := by
  subst hdescr
  obtain ⟨p1, p2⟩ := p
  refine ⟨?_, rfl⟩
  show globalVal r c (Redistribute r c M D2) _ _ = _
  rw [globalVal_Redistribute r c hr hc M D2 hD2]
  have hMr : 0 < DistKind.modOf r c M.descr.rowKind :=
    DistKind.modOf_pos hr hc _
  have hMc : 0 < DistKind.modOf r c M.descr.colKind :=
    DistKind.modOf_pos hr hc _
  have h := hcons p1 hp1 p2 hp2 _ hgi _ hgj
    (ownsDim_localToGlobal r c M.descr.rowKind M.descr.rowAlign (p1, p2) li
      hsprow)
    (ownsDim_localToGlobal r c M.descr.colKind M.descr.colAlign (p1, p2) lj
      hspcol)
  rw [← h]
  unfold globalToLocal
  rw [localToGlobal_div _ _ _ _ hMr, localToGlobal_div _ _ _ _ hMc]

theorem Redistribute_roundtrip_witness :
    (0 : ℕ) < 1 ∧ (0 : ℕ) < 1 ∧
    DescrOK 1 1 (Descr.mk DistKind.replicated 0 DistKind.replicated 0) ∧
    (DMat.mk 2 2 (Descr.mk DistKind.gridRow 0 DistKind.gridCol 0)
        (fun _ li lj => (li + 2 * lj : ℤ))).descr =
      Descr.mk DistKind.gridRow 0 DistKind.gridCol 0 ∧
    Consistent 1 1 (DMat.mk 2 2 (Descr.mk DistKind.gridRow 0 DistKind.gridCol 0)
      (fun _ li lj => (li + 2 * lj : ℤ))) ∧
    ((0, 0) : ℕ × ℕ).1 < 1 ∧ ((0, 0) : ℕ × ℕ).2 < 1 ∧
    localToGlobal
        (DistKind.modOf 1 1 (Descr.mk DistKind.gridRow 0 DistKind.gridCol 0).rowKind)
        (Descr.mk DistKind.gridRow 0 DistKind.gridCol 0).rowAlign
        (DistKind.coordOf 1 1 (Descr.mk DistKind.gridRow 0 DistKind.gridCol 0).rowKind
          (0, 0)) 0 <
      (DMat.mk 2 2 (Descr.mk DistKind.gridRow 0 DistKind.gridCol 0)
        (fun _ li lj => (li + 2 * lj : ℤ))).m ∧
    ((Redistribute 1 1
        (Redistribute 1 1
          (DMat.mk 2 2 (Descr.mk DistKind.gridRow 0 DistKind.gridCol 0)
            (fun _ li lj => (li + 2 * lj : ℤ)))
          (Descr.mk DistKind.replicated 0 DistKind.replicated 0))
        (Descr.mk DistKind.gridRow 0 DistKind.gridCol 0)).loc (0, 0) 0 1 =
      (DMat.mk 2 2 (Descr.mk DistKind.gridRow 0 DistKind.gridCol 0)
        (fun _ li lj => (li + 2 * lj : ℤ))).loc (0, 0) 0 1 ∧
    (Redistribute 1 1
        (Redistribute 1 1
          (DMat.mk 2 2 (Descr.mk DistKind.gridRow 0 DistKind.gridCol 0)
            (fun _ li lj => (li + 2 * lj : ℤ)))
          (Descr.mk DistKind.replicated 0 DistKind.replicated 0))
        (Descr.mk DistKind.gridRow 0 DistKind.gridCol 0)).descr =
      Descr.mk DistKind.gridRow 0 DistKind.gridCol 0) :=
  ⟨by decide, by decide, by decide, rfl, by decide, by decide, by decide,
    by decide,
    Redistribute_roundtrip 1 1
      (DMat.mk 2 2 (Descr.mk DistKind.gridRow 0 DistKind.gridCol 0)
        (fun _ li lj => (li + 2 * lj : ℤ)))
      (Descr.mk DistKind.gridRow 0 DistKind.gridCol 0)
      (Descr.mk DistKind.replicated 0 DistKind.replicated 0)
      (0, 0) 0 1 (by decide) (by decide) (by decide) rfl (by decide)
      (by decide) (by decide) (by decide) (by decide) (by decide)
      (by decide)⟩

/-- C6: `HerkUN` signals an error exactly on the bad calls: its result is
`ok` iff the grids match and the shapes conform (`A.Height() = C.Height()`
and `A.Height() = C.Width()`); it reports the grid mismatch iff the grids
differ; and it reports the nonconformality — carrying the offending
dimensions — iff the grids match but the shapes do not conform. -/
theorem HerkUNCheck_spec (gA gC aH aW cH cW : ℕ) :
    (HerkUNCheck gA gC aH aW cH cW = Except.ok () ↔
      gA = gC ∧ aH = cH ∧ aH = cW) ∧
    (HerkUNCheck gA gC aH aW cH cW =
        Except.error HerkCheckError.gridMismatch ↔ gA ≠ gC) ∧
    (HerkUNCheck gA gC aH aW cH cW =
        Except.error (HerkCheckError.nonconformal aH aW cH cW) ↔
      gA = gC ∧ (aH ≠ cH ∨ aH ≠ cW)) := by
  unfold HerkUNCheck
  split_ifs with h1 h2 <;> simp_all <;> omega

/-!
Lemmas for the IPF termination claim.
-/

/-- From any starting iteration not past `maxIts`, the loop ends in the
maximum-iterations error iff the relative error stays above `targetTol` at
every remaining iteration before `maxIts` and is still above `minTol` at
iteration `maxIts`. -/
lemma IPFLoop_error_iff (maxIts : ℕ) (targetTol minTol : ℚ) (err : ℕ → ℚ)
    (hTol : targetTol ≤ minTol) :
    ∀ d start, maxIts + 1 - start = d → start ≤ maxIts →
      (IPFLoop maxIts targetTol minTol err start =
          IPFResult.maxItsError maxIts ↔
        (∀ n, start ≤ n → n < maxIts → targetTol < err n) ∧
          minTol < err maxIts) := by
  intro d
  induction d using Nat.strong_induction_on with
  | _ d IH =>
    intro start hd hstart
    rw [IPFLoop, if_neg (by omega)]
    by_cases hbrk : err start ≤ targetTol
    · rw [if_pos hbrk]
      constructor
      · intro h
        exact absurd h (by simp)
      · rintro ⟨hall, hmax⟩
        exfalso
        rcases Nat.lt_or_ge start maxIts with hlt | hge
        · exact absurd (hall start le_rfl hlt) (not_lt.mpr hbrk)
        · have hse : start = maxIts := by omega
          rw [hse] at hbrk
          linarith
    · rw [if_neg hbrk]
      by_cases herr : start = maxIts ∧ minTol < err start
      · obtain ⟨heq, hgt⟩ := herr
        subst heq
        rw [if_pos ⟨rfl, hgt⟩]
        constructor
        · intro _
          exact ⟨fun n h1 h2 => absurd h2 (by omega), hgt⟩
        · intro _
          rfl
      · rw [if_neg herr]
        rcases Nat.lt_or_ge start maxIts with hlt | hge
        · rw [IH (maxIts + 1 - (start + 1)) (by omega) (start + 1) rfl
            (by omega)]
          constructor
          · rintro ⟨hall, hmax⟩
            refine ⟨fun n h1 h2 => ?_, hmax⟩
            rcases Nat.eq_or_lt_of_le h1 with he | hl
            · rw [← he]
              exact not_le.mp hbrk
            · exact hall n hl h2
          · rintro ⟨hall, hmax⟩
            exact ⟨fun n h1 h2 => hall n (by omega) h2, hmax⟩
        · have hse : start = maxIts := by omega
          rw [IPFLoop, if_pos (by omega)]
          constructor
          · intro h
            exact absurd h (by simp)
          · rintro ⟨hall, hmax⟩
            rw [← hse] at hmax
            exact absurd ⟨hse, hmax⟩ herr

/-- From any starting iteration, the loop returns normally at the first
remaining iteration whose relative error is at most `targetTol`. -/
lemma IPFLoop_ok_at (maxIts : ℕ) (targetTol minTol : ℚ) (err : ℕ → ℚ) :
    ∀ d start n, maxIts + 1 - start = d → start ≤ n → n ≤ maxIts →
      err n ≤ targetTol → (∀ p, start ≤ p → p < n → targetTol < err p) →
      IPFLoop maxIts targetTol minTol err start = IPFResult.ok n := by
  intro d
  induction d using Nat.strong_induction_on with
  | _ d IH =>
    intro start n hd h1 h2 h3 h4
    rw [IPFLoop, if_neg (by omega)]
    by_cases hbs : err start ≤ targetTol
    · have hsn : start = n := by
        by_contra hne
        exact absurd (h4 start le_rfl (by omega)) (not_lt.mpr hbs)
      rw [if_pos hbs, hsn]
    · have hsn : start ≠ n := fun he => hbs (he ▸ h3)
      rw [if_neg hbs, if_neg (by rintro ⟨ha, -⟩; omega)]
      exact IH (maxIts + 1 - (start + 1)) (by omega) (start + 1) n rfl
        (by omega) h2 h3 fun p hp1 hp2 => h4 p (by omega) hp2

/-- C7: `IPF` terminates with the fatal "Maximum number of iterations
exceeded" error exactly when the iteration counter reaches `ctrl.maxIts`
with the relative error still above `ctrl.minTol` (having stayed above
`ctrl.targetTol` at every earlier iteration, i.e. no earlier return); and it
returns normally — in a single pass, with no internal retry — at the first
iteration whose relative error drops to at most `ctrl.targetTol`. -/
theorem IPF_termination (maxIts : ℕ) (targetTol minTol : ℚ) (err : ℕ → ℚ)
    (hTol : targetTol ≤ minTol) :
    (IPF maxIts targetTol minTol err = IPFResult.maxItsError maxIts ↔
      (∀ n, n < maxIts → targetTol < err n) ∧ minTol < err maxIts) ∧
    (∀ n, n ≤ maxIts → err n ≤ targetTol → (∀ p, p < n → targetTol < err p) →
      IPF maxIts targetTol minTol err = IPFResult.ok n) := by
  constructor
  · unfold IPF
    rw [IPFLoop_error_iff maxIts targetTol minTol err hTol (maxIts + 1 - 0) 0
      rfl (Nat.zero_le _)]
    constructor
    · rintro ⟨hall, hmax⟩
      exact ⟨fun n hn => hall n (Nat.zero_le _) hn, hmax⟩
    · rintro ⟨hall, hmax⟩
      exact ⟨fun n _ hn => hall n hn, hmax⟩
  · intro n h1 h2 h3
    exact IPFLoop_ok_at maxIts targetTol minTol err (maxIts + 1 - 0) 0 n rfl
      (Nat.zero_le _) h1 h2 fun p _ hp => h3 p hp

theorem IPF_termination_witness :
    (1 : ℚ) ≤ 2 ∧
    ((IPF 1 1 2 (fun _ => (3 : ℚ)) = IPFResult.maxItsError 1 ↔
      (∀ n, n < 1 → (1 : ℚ) < (fun _ => (3 : ℚ)) n) ∧
        (2 : ℚ) < (fun _ => (3 : ℚ)) 1) ∧
    (∀ n, n ≤ 1 → (fun _ => (3 : ℚ)) n ≤ 1 →
      (∀ p, p < n → (1 : ℚ) < (fun _ => (3 : ℚ)) p) →
      IPF 1 1 2 (fun _ => (3 : ℚ)) = IPFResult.ok n)) :=
  ⟨by decide, IPF_termination 1 1 2 (fun _ => (3 : ℚ)) (by decide)⟩

/-- C9: for every input, the non-distributed wrapper `ElCauchyLike_` returns
`EL_SUCCESS` while leaving the output matrix `A` entirely unchanged — it
builds the vectors `r`, `s`, `x`, `y` from the buffers but never invokes
`CauchyLike` — whereas `ElCauchyLikeDist_` does invoke `CauchyLike` on those
vectors and populates `A` with its result. -/
theorem ElCauchyLike_frame {R : Type}
    (cl : List R → List R → List R → List R → (ℕ → ℕ → R) → ℕ → ℕ → R)
    (A : ℕ → ℕ → R) (rSize sSize xSize ySize : ℕ)
    (rBuf sBuf xBuf yBuf : ℕ → R) :
    ElCauchyLike cl A rSize sSize xSize ySize rBuf sBuf xBuf yBuf =
      (ElError.success, A) ∧
    ElCauchyLikeDist cl A rSize sSize xSize ySize rBuf sBuf xBuf yBuf =
      (ElError.success,
        cl ((List.range rSize).map rBuf) ((List.range sSize).map sBuf)
          ((List.range xSize).map xBuf) ((List.range ySize).map yBuf) A) :=
  ⟨rfl, rfl⟩

/-- C10: the output of `adjoint::PartialColFilter` is independent of its
`conjugate` argument — any two flag values produce identical contents of
`B` — because the parameter is discarded and `transpose::PartialColFilter`
is always invoked with conjugation enabled. -/
theorem AdjointPartialColFilter_const {M : Type} (tf : M → M → Bool → M)
    (A B : M) (c1 c2 : Bool) :
    AdjointPartialColFilter tf A B c1 = AdjointPartialColFilter tf A B c2 ∧
    AdjointPartialColFilter tf A B c1 = tf A B true :=
  ⟨rfl, rfl⟩

end Elemental
